import Mathlib

/-!
Shallow embedding of the graph-analysis core of `src/src/main.rs`
(DS_210 final project): an undirected multigraph over string-labelled
nodes, with BFS hop distances (`bfs_shortest_paths`), connected
components (`connected_components`), the largest component
(`largest_component`) and harmonic centrality (`harmonic_centrality`).

Modelling conventions:
* `HashMap<String, Vec<(String, u32)>>` is modelled as an association
  list in key-insertion order with unique keys: `pushEntry` appends to
  the value list of an existing key and otherwise appends a new key at
  the end.  This is a deterministic refinement of the hash map, whose
  iteration order Rust leaves unspecified.
* `u32` weights and distances are modelled as `Nat`: the modelled code
  performs no arithmetic on weights, and every distance it computes is
  bounded by the number of nodes, so `u32` overflow cannot occur for
  any graph a real process can hold.
* `f64` centrality scores are modelled as `ℚ`: the modelled sums are
  finite sums of reciprocals of positive naturals, and no claim here
  depends on rounding behaviour.
* `VecDeque::push_back` / `pop_front` become list append / head match;
  `Vec::push` / `Vec::pop` (the DFS stack) become cons / head match,
  so the head of the modelled stack is the top of the Rust stack.
-/

namespace FlightGraph

abbrev Node := String
abbrev Weight := Nat

/-- Association-list lookup, modelling `HashMap::get`. -/
def alookup {α : Type} : List (Node × α) → Node → Option α
  | [], _ => none
  | (k, v) :: rest, x => if k = x then some v else alookup rest x

/-- The graph store of `main.rs`:
`adjacency_list: HashMap<String, Vec<(String, u32)>>`. -/
structure Graph where
  adjacency_list : List (Node × List (Node × Weight))

/-- `Graph::new`. -/
def Graph.new : Graph := ⟨[]⟩

/-- One `entry(k).or_insert_with(Vec::new).push(v)` step. -/
def pushEntry (m : List (Node × List (Node × Weight))) (k : Node) (v : Node × Weight) :
    List (Node × List (Node × Weight)) :=
  match m with
  | [] => [(k, [v])]
  | (k', l) :: rest =>
    if k' = k then (k', l ++ [v]) :: rest else (k', l) :: pushEntry rest k v

/-- `Graph::add_edge`: pushes `(to, w)` onto `from`'s list and `(from, w)`
onto `to`'s list (the graph is always undirected). -/
def Graph.add_edge (g : Graph) (f t : Node) (w : Weight) : Graph :=
  ⟨pushEntry (pushEntry g.adjacency_list f (t, w)) t (f, w)⟩

/-- The nodes known to the store, in key-insertion order
(`adjacency_list.keys()`). -/
def Graph.keysList (g : Graph) : List Node := g.adjacency_list.map Prod.fst

/-- The adjacency list of `x`; `[]` for an unknown node, modelling the
`if let Some(neighbors) = self.adjacency_list.get(..)` pattern. -/
def Graph.adjOf (g : Graph) (x : Node) : List (Node × Weight) :=
  (alookup g.adjacency_list x).getD []

/-- `build_graph`: fold `add_edge` over the `(origin, destination, weight)`
triples of the record stream. -/
def build_graph (edges : List (Node × Node × Weight)) : Graph :=
  edges.foldl (fun g e => g.add_edge e.1 e.2.1 e.2.2) Graph.new

/-- The sequence of `queue.push_back((neighbor, distance + 1))` calls made
by the BFS neighbour loop: the unvisited neighbours in adjacency order,
each tagged with the new distance. -/
def bfsPush (visited : List Node) (d : Nat) : List (Node × Weight) → List (Node × Nat)
  | [] => []
  | (n, _) :: rest =>
    if n ∈ visited then bfsPush visited d rest else (n, d) :: bfsPush visited d rest

/-- Total number of adjacency entries, used only for termination. -/
def totalAdj (g : Graph) : Nat := (g.adjacency_list.map (fun p => p.2.length)).sum

/-- Number of keys not yet visited, used only for termination. -/
def unvisitedCount (g : Graph) (visited : List Node) : Nat :=
  (g.keysList.filter (fun k => decide (k ∉ visited))).length

/-- One BFS measure: lexicographic (unvisited keys, queue length) packed
into a single natural. -/
def bfsMeasure (g : Graph) (q : List (Node × Nat)) (visited : List Node) : Nat :=
  unvisitedCount g visited * (totalAdj g + 1) + q.length

/-- The `while let Some((current, distance)) = queue.pop_front()` loop of
`bfs_shortest_paths`: skip visited nodes; otherwise record the distance and
enqueue the unvisited neighbours at `distance + 1`. -/
def bfsLoop (g : Graph) : List (Node × Nat) → List Node → List (Node × Nat) → List (Node × Nat)
  | [], _, dists => dists
  | (current, d) :: rest, visited, dists =>
    if current ∈ visited then
      bfsLoop g rest visited dists
    else
      bfsLoop g (rest ++ bfsPush (current :: visited) (d + 1) (g.adjOf current))
        (current :: visited) (dists ++ [(current, d)])
termination_by q visited _ => bfsMeasure g q visited
decreasing_by
  · simp only [bfsMeasure, List.length_cons]
    omega
  · rename_i hnv
    have hpushlen : ∀ (v : List Node) (dd : Nat) (ns : List (Node × Weight)),
        (bfsPush v dd ns).length ≤ ns.length := by
      intro v dd ns
      induction ns with
      | nil => simp [bfsPush]
      | cons hd tl ih =>
        obtain ⟨n, w⟩ := hd
        by_cases hn : n ∈ v <;> simp [bfsPush, hn] <;> omega
    have hlk : ∀ (m : List (Node × List (Node × Weight))) (x : Node) (l : List (Node × Weight)),
        alookup m x = some l → l.length ≤ (m.map (fun p => p.2.length)).sum := by
      intro m x l h
      induction m with
      | nil => simp [alookup] at h
      | cons hd tl ih =>
        obtain ⟨k, v⟩ := hd
        by_cases hk : k = x
        · rw [alookup, if_pos hk] at h
          injection h with h
          subst h
          simp
        · rw [alookup, if_neg hk] at h
          have := ih h
          simp
          omega
    have hnone : ∀ (m : List (Node × List (Node × Weight))) (x : Node),
        x ∉ m.map Prod.fst → alookup m x = none := by
      intro m x hx
      induction m with
      | nil => rfl
      | cons hd tl ih =>
        obtain ⟨k, v⟩ := hd
        simp only [List.map_cons, List.mem_cons] at hx
        push_neg at hx
        rw [alookup, if_neg (fun h => hx.1 h.symm)]
        exact ih hx.2
    have hadj : (g.adjOf current).length ≤ totalAdj g := by
      unfold Graph.adjOf totalAdj
      cases h : alookup g.adjacency_list current with
      | none => simp
      | some l => simpa using hlk _ _ _ h
    have hfle : ∀ (l : List Node) (p q : Node → Bool), (∀ a, p a = true → q a = true) →
        (l.filter p).length ≤ (l.filter q).length := by
      intro l p q himp
      induction l with
      | nil => simp
      | cons hd tl ih =>
        rw [List.filter_cons, List.filter_cons]
        by_cases hp : p hd = true
        · rw [if_pos hp, if_pos (himp hd hp)]
          simp only [List.length_cons]
          omega
        · rw [if_neg hp]
          by_cases hq : q hd = true
          · rw [if_pos hq]
            simp only [List.length_cons]
            omega
          · rw [if_neg hq]
            exact ih
    have hfltgen : ∀ (l : List Node) (c : Node) (v : List Node), c ∈ l → c ∉ v →
        (l.filter (fun k => decide (k ∉ c :: v))).length <
          (l.filter (fun k => decide (k ∉ v))).length := by
      intro l c v hcl hcv
      have himp : ∀ a : Node, decide (a ∉ c :: v) = true → decide (a ∉ v) = true := by
        intro a ha
        simp only [decide_eq_true_eq, List.mem_cons] at ha ⊢
        tauto
      induction l with
      | nil => simp at hcl
      | cons hd tl ih =>
        rw [List.filter_cons, List.filter_cons]
        by_cases hmem : c ∈ tl
        · have htl := ih hmem
          split_ifs with h1 h2 h2
          · simp only [List.length_cons]
            omega
          · exact absurd (himp hd h1) h2
          · simp only [List.length_cons]
            omega
          · exact htl
        · have hc : c = hd := by
            rcases List.mem_cons.mp hcl with h | h
            · exact h
            · exact absurd h hmem
          subst hc
          have h1 : ¬ (decide (c ∉ c :: v) = true) := by simp
          have h2 : decide (c ∉ v) = true := by simp [hcv]
          rw [if_neg h1, if_pos h2]
          have htl := hfle tl _ _ himp
          simp only [List.length_cons]
          omega
    simp only [bfsMeasure, List.length_append, List.length_cons]
    have hpush : (bfsPush (current :: visited) (d + 1) (g.adjOf current)).length ≤ totalAdj g :=
      le_trans (hpushlen _ _ _) hadj
    by_cases hk : current ∈ g.keysList
    · have hflt := hfltgen g.keysList current visited hk hnv
      have hmul : (unvisitedCount g (current :: visited) + 1) * (totalAdj g + 1) ≤
          unvisitedCount g visited * (totalAdj g + 1) :=
        Nat.mul_le_mul_right _ hflt
      nlinarith [hmul, hpush]
    · have hnil : g.adjOf current = [] := by
        unfold Graph.adjOf
        rw [hnone _ _ hk]
        rfl
      have hle : unvisitedCount g (current :: visited) ≤ unvisitedCount g visited :=
        hfle _ _ _ (by intro a ha; simp only [decide_eq_true_eq, List.mem_cons] at ha ⊢; tauto)
      have hmul : unvisitedCount g (current :: visited) * (totalAdj g + 1) ≤
          unvisitedCount g visited * (totalAdj g + 1) :=
        Nat.mul_le_mul_right _ hle
      simp only [hnil, bfsPush, List.length_nil]
      omega

/-- `Graph::bfs_shortest_paths`: BFS hop distances from `start`, as the
insertion-ordered list of `(node, distance)` records. -/
def Graph.bfs_shortest_paths (g : Graph) (start : Node) : List (Node × Nat) :=
  bfsLoop g [(start, 0)] [] []

/-- The names `stack.push(neighbor)` pushes in the inner neighbour loop of
`connected_components`: the unvisited neighbours in adjacency order. -/
def dfsPush (visited : List Node) : List (Node × Weight) → List Node
  | [] => []
  | (n, _) :: rest =>
    if n ∈ visited then dfsPush visited rest else n :: dfsPush visited rest

/-- The `while let Some(current) = stack.pop()` loop of
`connected_components`: freshly visited nodes join the component and their
unvisited neighbours are pushed onto the stack.  Returns the final visited
set and the component. -/
def dfsLoop (g : Graph) : List Node → List Node → List Node → List Node × List Node
  | [], visited, component => (visited, component)
  | current :: stack, visited, component =>
    if current ∈ visited then
      dfsLoop g stack visited component
    else
      dfsLoop g ((dfsPush (current :: visited) (g.adjOf current)).reverse ++ stack)
        (current :: visited) (component ++ [current])
termination_by stack visited _ => unvisitedCount g visited * (totalAdj g + 1) + stack.length
decreasing_by
  · simp only [List.length_cons]
    omega
  · rename_i hnv
    have hpushlen : ∀ (v : List Node) (ns : List (Node × Weight)),
        (dfsPush v ns).length ≤ ns.length := by
      intro v ns
      induction ns with
      | nil => simp [dfsPush]
      | cons hd tl ih =>
        obtain ⟨n, w⟩ := hd
        by_cases hn : n ∈ v <;> simp [dfsPush, hn] <;> omega
    have hlk : ∀ (m : List (Node × List (Node × Weight))) (x : Node) (l : List (Node × Weight)),
        alookup m x = some l → l.length ≤ (m.map (fun p => p.2.length)).sum := by
      intro m x l h
      induction m with
      | nil => simp [alookup] at h
      | cons hd tl ih =>
        obtain ⟨k, v⟩ := hd
        by_cases hk : k = x
        · rw [alookup, if_pos hk] at h
          injection h with h
          subst h
          simp
        · rw [alookup, if_neg hk] at h
          have := ih h
          simp
          omega
    have hnone : ∀ (m : List (Node × List (Node × Weight))) (x : Node),
        x ∉ m.map Prod.fst → alookup m x = none := by
      intro m x hx
      induction m with
      | nil => rfl
      | cons hd tl ih =>
        obtain ⟨k, v⟩ := hd
        simp only [List.map_cons, List.mem_cons] at hx
        push_neg at hx
        rw [alookup, if_neg (fun h => hx.1 h.symm)]
        exact ih hx.2
    have hadj : (g.adjOf current).length ≤ totalAdj g := by
      unfold Graph.adjOf totalAdj
      cases h : alookup g.adjacency_list current with
      | none => simp
      | some l => simpa using hlk _ _ _ h
    have hfle : ∀ (l : List Node) (p q : Node → Bool), (∀ a, p a = true → q a = true) →
        (l.filter p).length ≤ (l.filter q).length := by
      intro l p q himp
      induction l with
      | nil => simp
      | cons hd tl ih =>
        rw [List.filter_cons, List.filter_cons]
        by_cases hp : p hd = true
        · rw [if_pos hp, if_pos (himp hd hp)]
          simp only [List.length_cons]
          omega
        · rw [if_neg hp]
          by_cases hq : q hd = true
          · rw [if_pos hq]
            simp only [List.length_cons]
            omega
          · rw [if_neg hq]
            exact ih
    have hfltgen : ∀ (l : List Node) (c : Node) (v : List Node), c ∈ l → c ∉ v →
        (l.filter (fun k => decide (k ∉ c :: v))).length <
          (l.filter (fun k => decide (k ∉ v))).length := by
      intro l c v hcl hcv
      have himp : ∀ a : Node, decide (a ∉ c :: v) = true → decide (a ∉ v) = true := by
        intro a ha
        simp only [decide_eq_true_eq, List.mem_cons] at ha ⊢
        tauto
      induction l with
      | nil => simp at hcl
      | cons hd tl ih =>
        rw [List.filter_cons, List.filter_cons]
        by_cases hmem : c ∈ tl
        · have htl := ih hmem
          split_ifs with h1 h2 h2
          · simp only [List.length_cons]
            omega
          · exact absurd (himp hd h1) h2
          · simp only [List.length_cons]
            omega
          · exact htl
        · have hc : c = hd := by
            rcases List.mem_cons.mp hcl with h | h
            · exact h
            · exact absurd h hmem
          subst hc
          have h1 : ¬ (decide (c ∉ c :: v) = true) := by simp
          have h2 : decide (c ∉ v) = true := by simp [hcv]
          rw [if_neg h1, if_pos h2]
          have htl := hfle tl _ _ himp
          simp only [List.length_cons]
          omega
    simp only [List.length_append, List.length_cons, List.length_reverse]
    have hpush : (dfsPush (current :: visited) (g.adjOf current)).length ≤ totalAdj g :=
      le_trans (hpushlen _ _) hadj
    by_cases hk : current ∈ g.keysList
    · have hflt := hfltgen g.keysList current visited hk hnv
      have hmul : (unvisitedCount g (current :: visited) + 1) * (totalAdj g + 1) ≤
          unvisitedCount g visited * (totalAdj g + 1) :=
        Nat.mul_le_mul_right _ hflt
      nlinarith [hmul, hpush]
    · have hnil : g.adjOf current = [] := by
        unfold Graph.adjOf
        rw [hnone _ _ hk]
        rfl
      have hle : unvisitedCount g (current :: visited) ≤ unvisitedCount g visited :=
        hfle _ _ _ (by intro a ha; simp only [decide_eq_true_eq, List.mem_cons] at ha ⊢; tauto)
      have hmul : unvisitedCount g (current :: visited) * (totalAdj g + 1) ≤
          unvisitedCount g visited * (totalAdj g + 1) :=
        Nat.mul_le_mul_right _ hle
      simp only [hnil, dfsPush, List.reverse_nil, List.length_nil]
      omega

/-- The `for node in self.adjacency_list.keys()` loop of
`connected_components`. -/
def componentsLoop (g : Graph) :
    List Node → List Node → List (List Node) → List (List Node)
  | [], _, comps => comps
  | node :: restKeys, visited, comps =>
    if node ∈ visited then
      componentsLoop g restKeys visited comps
    else
      match dfsLoop g [node] visited [] with
      | (visited', comp) => componentsLoop g restKeys visited' (comps ++ [comp])

/-- `Graph::connected_components`: one component (as an insertion-ordered
node list) per unvisited seed key. -/
def Graph.connected_components (g : Graph) : List (List Node) :=
  componentsLoop g g.keysList [] []

/-- `Iterator::max_by_key(|component| component.len())`: the *last*
element of maximal length, `none` on an empty sequence. -/
def maxByKeyLen (l : List (List Node)) : Option (List Node) :=
  l.foldl
    (fun acc c =>
      match acc with
      | none => some c
      | some b => if b.length ≤ c.length then some c else some b)
    none

/-- `Graph::largest_component`: `max_by_key(..).unwrap_or_default()`. -/
def Graph.largest_component (g : Graph) : List Node :=
  (maxByKeyLen g.connected_components).getD []

/-- The per-node harmonic sum: over all recorded distances `d`, add `1/d`
when `d > 0` and `0` otherwise (`f64` modelled as `ℚ`). -/
def harmonicSum (dists : List (Node × Nat)) : ℚ :=
  (dists.map (fun p => if 0 < p.2 then (1 : ℚ) / (p.2 : ℚ) else 0)).sum

/-- The score `harmonic_centrality` computes for one node before ranking. -/
def harmonicScore (g : Graph) (n : Node) : ℚ :=
  harmonicSum (g.bfs_shortest_paths n)

/-- The descending-by-score order used by
`sort_by(|a, b| b.1.partial_cmp(&a.1).unwrap())`. -/
def scoreGE (a b : Node × ℚ) : Prop := b.2 ≤ a.2

instance : DecidableRel scoreGE := fun a b => inferInstanceAs (Decidable (b.2 ≤ a.2))

instance : IsTotal (Node × ℚ) scoreGE := ⟨fun a b => le_total b.2 a.2⟩

instance : IsTrans (Node × ℚ) scoreGE := ⟨fun _ _ _ hab hbc => le_trans hbc hab⟩

/-- `Graph::harmonic_centrality`: per-key scores, stably sorted by
descending score, truncated to the top five. -/
def Graph.harmonic_centrality (g : Graph) : List (Node × ℚ) :=
  (List.insertionSort scoreGE
      (g.keysList.map (fun node => (node, harmonicScore g node)))).take 5

/-- `adjStep g x y`: the store records `y` among the neighbours of `x`. -/
def adjStep (g : Graph) (x y : Node) : Prop := ∃ w, (y, w) ∈ g.adjOf x

/-- `hasPathLen g s x n`: there is a walk of exactly `n` adjacency steps
from `s` to `x`; each traversed edge counts `1` regardless of weight. -/
inductive hasPathLen (g : Graph) (s : Node) : Node → Nat → Prop
  | refl : hasPathLen g s s 0
  | step {x y : Node} {n : Nat} (h : hasPathLen g s x n) (hxy : adjStep g x y) :
      hasPathLen g s y (n + 1)

/-- `Reaches g s x`: some walk leads from `s` to `x` (including `s` itself). -/
def Reaches (g : Graph) (s x : Node) : Prop := ∃ n, hasPathLen g s x n

/-- Mirror-edge invariant of stores built through `add_edge`. -/
def SymmAdj (g : Graph) : Prop := ∀ x y w, (y, w) ∈ g.adjOf x → (x, w) ∈ g.adjOf y

/-- Every endpoint mentioned anywhere in the adjacency is a key. -/
def ClosedKeys (g : Graph) : Prop :=
  ∀ x y w, (y, w) ∈ g.adjOf x → x ∈ g.keysList ∧ y ∈ g.keysList

/-- Loop invariant of `bfsLoop` relating queue, visited set and recorded
distances. -/
structure BfsInv (g : Graph) (s : Node) (q : List (Node × Nat)) (v : List Node)
    (ds : List (Node × Nat)) : Prop where
  visited_iff : ∀ x, x ∈ v ↔ x ∈ ds.map Prod.fst
  nodupKeys : (ds.map Prod.fst).Nodup
  sound_ds : ∀ p ∈ ds, hasPathLen g s p.1 p.2
  sound_q : ∀ p ∈ q, hasPathLen g s p.1 p.2
  sorted_q : q.Pairwise (fun a b : Node × Nat => a.2 ≤ b.2)
  bound_q : ∀ p ∈ q, ∀ p' ∈ q, p.2 ≤ p'.2 + 1
  ds_le_q : ∀ p ∈ ds, ∀ p' ∈ q, p.2 ≤ p'.2
  closure : ∀ p ∈ ds, ∀ nb ∈ g.adjOf p.1,
    (∃ d, (nb.1, d) ∈ ds ∧ d ≤ p.2 + 1) ∨ (∃ d, (nb.1, d) ∈ q ∧ d ≤ p.2 + 1)

/-- What `bfsLoop` guarantees about its result, relative to the entry
state. -/
structure BfsOut (g : Graph) (s : Node) (q ds R : List (Node × Nat)) : Prop where
  ext : ∃ t, R = ds ++ t
  sound : ∀ p ∈ R, hasPathLen g s p.1 p.2
  nodupKeys : (R.map Prod.fst).Nodup
  covers_q : ∀ p ∈ q, ∃ d, (p.1, d) ∈ R ∧ d ≤ p.2
  closure : ∀ p ∈ R, ∀ nb ∈ g.adjOf p.1, ∃ d, (nb.1, d) ∈ R ∧ d ≤ p.2 + 1

/-! ### Association-list lemmas -/

theorem alookup_eq_none {α : Type} (m : List (Node × α)) (x : Node)
    (hx : x ∉ m.map Prod.fst) : alookup m x = none := by
  induction m with
  | nil => rfl
  | cons hd tl ih =>
    obtain ⟨k, v⟩ := hd
    simp only [List.map_cons, List.mem_cons] at hx
    push_neg at hx
    rw [alookup, if_neg (fun h => hx.1 h.symm)]
    exact ih hx.2

theorem alookup_mem {α : Type} (m : List (Node × α)) (x : Node) (v : α)
    (h : alookup m x = some v) : (x, v) ∈ m := by
  induction m with
  | nil => simp [alookup] at h
  | cons hd tl ih =>
    obtain ⟨k, w⟩ := hd
    by_cases hk : k = x
    · rw [alookup, if_pos hk] at h
      injection h with h
      subst hk h
      exact List.mem_cons_self _ _
    · rw [alookup, if_neg hk] at h
      exact List.mem_cons_of_mem _ (ih h)

theorem mem_alookup {α : Type} (m : List (Node × α)) (x : Node) (v : α)
    (hnd : (m.map Prod.fst).Nodup) (h : (x, v) ∈ m) : alookup m x = some v := by
  induction m with
  | nil => simp at h
  | cons hd tl ih =>
    obtain ⟨k, w⟩ := hd
    simp only [List.map_cons, List.nodup_cons] at hnd
    rcases List.mem_cons.mp h with heq | hmem
    · injection heq with h1 h2
      subst h1 h2
      rw [alookup, if_pos rfl]
    · have hkx : k ≠ x := by
        intro hk
        subst hk
        exact hnd.1 (List.mem_map.mpr ⟨(k, v), hmem, rfl⟩)
      rw [alookup, if_neg hkx]
      exact ih hnd.2 hmem

theorem adjOf_eq_nil_of_not_key (g : Graph) (x : Node) (hx : x ∉ g.keysList) :
    g.adjOf x = [] := by
  unfold Graph.adjOf
  rw [alookup_eq_none _ _ hx]
  rfl

theorem mem_keysList_of_adjOf_ne_nil (g : Graph) (x : Node) (h : g.adjOf x ≠ []) :
    x ∈ g.keysList := by
  by_contra hx
  exact h (adjOf_eq_nil_of_not_key g x hx)

theorem alookup_pushEntry (m : List (Node × List (Node × Weight))) (k : Node)
    (v : Node × Weight) (x : Node) :
    alookup (pushEntry m k v) x =
      if k = x then some ((alookup m x).getD [] ++ [v]) else alookup m x := by
  induction m with
  | nil =>
    simp only [pushEntry, alookup]
    by_cases hk : k = x
    · rw [if_pos hk, if_pos hk]
      rfl
    · rw [if_neg hk, if_neg hk]
  | cons hd tl ih =>
    obtain ⟨k', l⟩ := hd
    by_cases hk' : k' = k
    · subst hk'
      by_cases hx : k' = x
      · rw [pushEntry, if_pos rfl, alookup, if_pos hx, if_pos hx, alookup, if_pos hx]
        rfl
      · rw [pushEntry, if_pos rfl, alookup, if_neg hx, if_neg hx, alookup, if_neg hx]
    · by_cases hx : k' = x
      · have hkx : ¬ (k = x) := fun h => hk' (hx.trans h.symm)
        rw [pushEntry, if_neg hk', alookup, if_pos hx, if_neg hkx, alookup, if_pos hx]
      · rw [pushEntry, if_neg hk', alookup, if_neg hx, ih, alookup, if_neg hx]

theorem keys_pushEntry (m : List (Node × List (Node × Weight))) (k : Node)
    (v : Node × Weight) :
    (pushEntry m k v).map Prod.fst =
      if k ∈ m.map Prod.fst then m.map Prod.fst else m.map Prod.fst ++ [k] := by
  induction m with
  | nil => simp [pushEntry]
  | cons hd tl ih =>
    obtain ⟨k', l⟩ := hd
    by_cases hk' : k' = k
    · subst hk'
      simp [pushEntry]
    · rw [pushEntry, if_neg hk']
      simp only [List.map_cons, List.mem_cons]
      have hne : ¬ (k = k') := fun h => hk' h.symm
      by_cases hmem : k ∈ tl.map Prod.fst
      · rw [if_pos (Or.inr hmem)]
        simp only [List.map_cons, ih, if_pos hmem]
      · rw [if_neg (by tauto)]
        simp only [List.map_cons, ih, if_neg hmem, List.cons_append]

theorem mem_keys_pushEntry (m : List (Node × List (Node × Weight))) (k : Node)
    (v : Node × Weight) (x : Node) :
    x ∈ (pushEntry m k v).map Prod.fst ↔ x ∈ m.map Prod.fst ∨ x = k := by
  rw [keys_pushEntry]
  by_cases hmem : k ∈ m.map Prod.fst
  · rw [if_pos hmem]
    constructor
    · tauto
    · rintro (h | rfl)
      · exact h
      · exact hmem
  · rw [if_neg hmem]
    simp

theorem nodup_keys_pushEntry (m : List (Node × List (Node × Weight))) (k : Node)
    (v : Node × Weight) (hnd : (m.map Prod.fst).Nodup) :
    ((pushEntry m k v).map Prod.fst).Nodup := by
  rw [keys_pushEntry]
  by_cases hmem : k ∈ m.map Prod.fst
  · rwa [if_pos hmem]
  · rw [if_neg hmem]
    simp [List.nodup_append, hnd, hmem]

/-- The fully explicit effect of `add_edge` on every adjacency list. -/
theorem adjOf_add_edge (g : Graph) (f t : Node) (w : Weight) (x : Node) :
    (g.add_edge f t w).adjOf x =
      g.adjOf x ++
        (if x = f then (if f = t then [(t, w), (f, w)] else [(t, w)])
         else if x = t then [(f, w)] else []) := by
  unfold Graph.add_edge Graph.adjOf
  simp only [alookup_pushEntry]
  by_cases hxf : x = f
  · subst hxf
    by_cases hxt : x = t
    · subst hxt
      simp [List.append_assoc]
    · rw [if_neg (fun h : t = x => hxt h.symm), if_pos rfl, if_pos rfl, if_neg hxt]
      rfl
  · by_cases hxt : x = t
    · subst hxt
      rw [if_pos rfl, if_neg (fun h : f = x => hxf h.symm),
        if_neg (fun h : x = f => hxf h), if_pos rfl]
      rfl
    · rw [if_neg (fun h : t = x => hxt h.symm), if_neg (fun h : f = x => hxf h.symm),
        if_neg hxf, if_neg hxt]
      simp

theorem mem_keysList_add_edge (g : Graph) (f t : Node) (w : Weight) (x : Node) :
    x ∈ (g.add_edge f t w).keysList ↔ x ∈ g.keysList ∨ x = f ∨ x = t := by
  unfold Graph.add_edge Graph.keysList
  simp only [mem_keys_pushEntry]
  tauto

theorem nodup_keysList_add_edge (g : Graph) (f t : Node) (w : Weight)
    (hnd : g.keysList.Nodup) : (g.add_edge f t w).keysList.Nodup := by
  unfold Graph.add_edge Graph.keysList
  exact nodup_keys_pushEntry _ _ _ (nodup_keys_pushEntry _ _ _ hnd)

/-! ### Invariants of built stores -/

theorem symmAdj_add_edge (g : Graph) (f t : Node) (w' : Weight) (hg : SymmAdj g) :
    SymmAdj (g.add_edge f t w') := by
  intro x y w hmem
  rw [adjOf_add_edge] at hmem ⊢
  rw [List.mem_append] at hmem ⊢
  rcases hmem with hold | hextra
  · exact Or.inl (hg x y w hold)
  · right
    by_cases hxf : x = f
    · by_cases hft : f = t
      · rw [if_pos hxf, if_pos hft] at hextra
        rcases List.mem_cons.mp hextra with h | h
        · injection h with hy hw
          rw [if_pos (hy.trans hft.symm), if_pos hft, hxf, hw]
          exact List.mem_cons_of_mem _ (List.mem_cons_self _ _)
        · rcases List.mem_cons.mp h with h | h
          · injection h with hy hw
            rw [if_pos hy, if_pos hft, hxf, hw]
            exact List.mem_cons_of_mem _ (List.mem_cons_self _ _)
          · simp at h
      · rw [if_pos hxf, if_neg hft] at hextra
        rcases List.mem_cons.mp hextra with h | h
        · injection h with hy hw
          rw [if_neg (fun hyf : y = f => hft (hyf.symm.trans hy)), if_pos hy,
            hxf, hw]
          exact List.mem_cons_self _ _
        · simp at h
    · by_cases hxt : x = t
      · rw [if_neg hxf, if_pos hxt] at hextra
        rcases List.mem_cons.mp hextra with h | h
        · injection h with hy hw
          have hft : ¬ (f = t) := fun hft => hxf (hxt.trans hft.symm)
          rw [if_pos hy, if_neg hft, hxt, hw]
          exact List.mem_cons_self _ _
        · simp at h
      · rw [if_neg hxf, if_neg hxt] at hextra
        simp at hextra

theorem closedKeys_add_edge (g : Graph) (f t : Node) (w' : Weight) (hg : ClosedKeys g) :
    ClosedKeys (g.add_edge f t w') := by
  intro x y w hmem
  rw [adjOf_add_edge] at hmem
  rw [mem_keysList_add_edge, mem_keysList_add_edge]
  rcases List.mem_append.mp hmem with hold | hextra
  · have := hg x y w hold
    tauto
  · by_cases hxf : x = f
    · by_cases hft : f = t
      · rw [if_pos hxf, if_pos hft] at hextra
        rcases List.mem_cons.mp hextra with h | h
        · injection h with hy hw
          tauto
        · rcases List.mem_cons.mp h with h | h
          · injection h with hy hw
            tauto
          · simp at h
      · rw [if_pos hxf, if_neg hft] at hextra
        rcases List.mem_cons.mp hextra with h | h
        · injection h with hy hw
          tauto
        · simp at h
    · by_cases hxt : x = t
      · rw [if_neg hxf, if_pos hxt] at hextra
        rcases List.mem_cons.mp hextra with h | h
        · injection h with hy hw
          tauto
        · simp at h
      · rw [if_neg hxf, if_neg hxt] at hextra
        simp at hextra

theorem symmAdj_new : SymmAdj Graph.new := by
  intro x y w hmem
  simp [Graph.adjOf, Graph.new, alookup] at hmem

theorem closedKeys_new : ClosedKeys Graph.new := by
  intro x y w hmem
  simp [Graph.adjOf, Graph.new, alookup] at hmem

theorem nodup_keysList_new : Graph.new.keysList.Nodup := by
  simp [Graph.keysList, Graph.new]

theorem build_graph_invariants (edges : List (Node × Node × Weight)) :
    SymmAdj (build_graph edges) ∧ ClosedKeys (build_graph edges) ∧
      (build_graph edges).keysList.Nodup := by
  unfold build_graph
  suffices h : ∀ (l : List (Node × Node × Weight)) (g : Graph),
      SymmAdj g → ClosedKeys g → g.keysList.Nodup →
      SymmAdj (l.foldl (fun g e => g.add_edge e.1 e.2.1 e.2.2) g) ∧
        ClosedKeys (l.foldl (fun g e => g.add_edge e.1 e.2.1 e.2.2) g) ∧
        (l.foldl (fun g e => g.add_edge e.1 e.2.1 e.2.2) g).keysList.Nodup by
    exact h edges Graph.new symmAdj_new closedKeys_new nodup_keysList_new
  intro l
  induction l with
  | nil => exact fun g hs hc hn => ⟨hs, hc, hn⟩
  | cons e rest ih =>
    intro g hs hc hn
    exact ih _ (symmAdj_add_edge _ _ _ _ hs) (closedKeys_add_edge _ _ _ _ hc)
      (nodup_keysList_add_edge _ _ _ _ hn)

/-! ### Claim C7: multigraph insertion semantics -/

/-- C7: `add_edge` never replaces or merges prior edges.  Every adjacency
list grows only by appending: the new list of any node `x` is its old list
followed verbatim by the freshly pushed entries (and nothing else), so
every previously inserted parallel edge survives as an independent entry,
and re-inserting an existing ordered pair accumulates one more entry
(two for a self-loop) rather than overwriting. -/
theorem add_edge_multigraph_semantics (g : Graph) (f t : Node) (w : Weight) (x : Node) :
    (g.add_edge f t w).adjOf x =
      g.adjOf x ++
        (if x = f then (if f = t then [(t, w), (f, w)] else [(t, w)])
         else if x = t then [(f, w)] else []) ∧
    ((g.add_edge f t w).adjOf f).count (t, w) =
      (g.adjOf f).count (t, w) + (if f = t then 2 else 1) := by
  refine ⟨adjOf_add_edge g f t w x, ?_⟩
  rw [adjOf_add_edge g f t w f, List.count_append, if_pos rfl]
  by_cases hft : f = t
  · subst hft
    simp
  · rw [if_neg hft, if_neg hft]
    simp

/-! ### Claim C8: empty store returns empty results -/

/-- C8: on a store with zero nodes, `harmonic_centrality`,
`connected_components` and `largest_component` all return empty results
instead of signalling an error. -/
theorem empty_store_metrics_empty :
    Graph.new.harmonic_centrality = [] ∧ Graph.new.connected_components = [] ∧
      Graph.new.largest_component = [] :=
  ⟨rfl, rfl, rfl⟩

/-! ### Claim C9: BFS from an unknown start -/

/-- C9: `bfs_shortest_paths` on a start identifier never inserted into the
store does not fail: it returns the one-entry map sending the start to 0. -/
theorem bfs_unknown_start (g : Graph) (s : Node) (hs : s ∉ g.keysList) :
    g.bfs_shortest_paths s = [(s, 0)] := by
  have hadj : g.adjOf s = [] := adjOf_eq_nil_of_not_key g s hs
  unfold Graph.bfs_shortest_paths
  simp [bfsLoop, hadj, bfsPush]

/-- Witness for C9 at a concrete store and start. -/
theorem bfs_unknown_start_witness :
    "Z" ∉ (build_graph [("A", "B", 1)]).keysList ∧
      (build_graph [("A", "B", 1)]).bfs_shortest_paths "Z" = [("Z", 0)] :=
  ⟨by decide, bfs_unknown_start _ _ (by decide)⟩

/-! ### Claim C1: counterexample (absence, not a sentinel) -/

/-- C1 counterexample: in the store built from the edges A-B and D-E the
node `"D"` is known, yet `bfs_shortest_paths "A"` returns no entry for it
at all — unreachable nodes are absent from the map; nothing is mapped to
an `UNREACHABLE` sentinel. -/
theorem bfs_counterexample_no_entry_for_unreachable :
    "D" ∈ (build_graph [("A", "B", 1), ("D", "E", 1)]).keysList ∧
      alookup ((build_graph [("A", "B", 1), ("D", "E", 1)]).bfs_shortest_paths "A") "D"
        = none := by
  constructor
  · decide
  · have h : (build_graph [("A", "B", 1), ("D", "E", 1)]).bfs_shortest_paths "A"
        = [("A", 0), ("B", 1)] := by
      simp [Graph.bfs_shortest_paths, build_graph, Graph.add_edge, Graph.new, pushEntry,
        bfsLoop, bfsPush, Graph.adjOf, alookup]
    rw [h]
    decide

/-! ### Claim C2: truncation counterexample and what does hold -/

/-- C2 counterexample: on a six-node store the map returned by
`harmonic_centrality` omits the node `"F"` entirely — the core itself
ranks the scores and truncates to the top five. -/
theorem harmonic_centrality_counterexample_truncation :
    "F" ∈ (build_graph [("A", "B", 1), ("C", "D", 1), ("E", "F", 1)]).keysList ∧
      "F" ∉
        ((build_graph [("A", "B", 1), ("C", "D", 1), ("E", "F", 1)]).harmonic_centrality).map
          Prod.fst := by
  constructor
  · decide
  · have h : (build_graph [("A", "B", 1), ("C", "D", 1), ("E", "F", 1)]).harmonic_centrality
        = [("A", 1), ("B", 1), ("C", 1), ("D", 1), ("E", 1)] := by
      simp [Graph.harmonic_centrality, harmonicScore, harmonicSum, Graph.bfs_shortest_paths,
        build_graph, Graph.add_edge, Graph.new, pushEntry, bfsLoop, bfsPush, Graph.adjOf,
        alookup, Graph.keysList, List.insertionSort, List.orderedInsert, scoreGE]
    rw [h]
    decide

/-- C2 (amended): `harmonic_centrality` returns exactly
`min 5 (number of keys)` entries — every entry is the genuine score of a
known node, the output is sorted by descending score, and the map is
complete exactly when the store has at most five nodes. -/
theorem harmonic_centrality_top_five (g : Graph) :
    g.harmonic_centrality.length = min 5 g.keysList.length ∧
    (∀ p ∈ g.harmonic_centrality, p.1 ∈ g.keysList ∧ p.2 = harmonicScore g p.1) ∧
    (g.keysList.length ≤ 5 → ∀ x ∈ g.keysList,
      (x, harmonicScore g x) ∈ g.harmonic_centrality) ∧
    g.harmonic_centrality.Sorted scoreGE := by
  refine ⟨?_, ?_, ?_, ?_⟩
  · unfold Graph.harmonic_centrality
    rw [List.length_take, List.length_insertionSort, List.length_map]
  · intro p hp
    unfold Graph.harmonic_centrality at hp
    have h1 : p ∈ List.insertionSort scoreGE
        (g.keysList.map (fun node => (node, harmonicScore g node))) :=
      List.take_subset _ _ hp
    have h2 : p ∈ g.keysList.map (fun node => (node, harmonicScore g node)) :=
      (List.mem_insertionSort scoreGE).mp h1
    obtain ⟨x, hx, hxp⟩ := List.mem_map.mp h2
    subst hxp
    exact ⟨hx, rfl⟩
  · intro hlen x hx
    unfold Graph.harmonic_centrality
    have hmem : (x, harmonicScore g x) ∈
        g.keysList.map (fun node => (node, harmonicScore g node)) :=
      List.mem_map.mpr ⟨x, hx, rfl⟩
    have hslen : (List.insertionSort scoreGE
        (g.keysList.map (fun node => (node, harmonicScore g node)))).length ≤ 5 := by
      rw [List.length_insertionSort, List.length_map]
      exact hlen
    rw [List.take_of_length_le hslen]
    exact (List.mem_insertionSort scoreGE).mpr hmem
  · unfold Graph.harmonic_centrality
    exact ((List.sorted_insertionSort scoreGE _).sublist (List.take_sublist _ _))

/-! ### Claim C3: tie-break counterexample and what does hold -/

/-- C3 counterexample: with the store built from the edge A-B followed by
the edge C-D, `connected_components` yields two components that tie at
two nodes each, and `largest_component` returns the *last* one, not the
first-encountered one the claim promises. -/
theorem largest_component_counterexample_tie :
    (build_graph [("A", "B", 1), ("C", "D", 1)]).connected_components
        = [["A", "B"], ["C", "D"]] ∧
      (["A", "B"] : List Node).length = (["C", "D"] : List Node).length ∧
      (build_graph [("A", "B", 1), ("C", "D", 1)]).largest_component = ["C", "D"] ∧
      (build_graph [("A", "B", 1), ("C", "D", 1)]).largest_component ≠ ["A", "B"] := by
  have hcc : (build_graph [("A", "B", 1), ("C", "D", 1)]).connected_components
      = [["A", "B"], ["C", "D"]] := by
    simp [Graph.connected_components, componentsLoop, dfsLoop, dfsPush, build_graph,
      Graph.add_edge, Graph.new, pushEntry, Graph.adjOf, alookup, Graph.keysList]
  have hlc : (build_graph [("A", "B", 1), ("C", "D", 1)]).largest_component = ["C", "D"] := by
    unfold Graph.largest_component
    rw [hcc]
    decide
  refine ⟨hcc, rfl, hlc, ?_⟩
  rw [hlc]
  decide

theorem maxByKeyLen_spec (l : List (List Node)) (hne : l ≠ []) :
    ∃ l₁ l₂ m, maxByKeyLen l = some m ∧ l = l₁ ++ m :: l₂ ∧
      (∀ c ∈ l₁, c.length ≤ m.length) ∧ (∀ c ∈ l₂, c.length < m.length) := by
  induction l using List.reverseRecOn with
  | nil => exact absurd rfl hne
  | append_singleton l' c ih =>
    by_cases hl' : l' = []
    · subst hl'
      exact ⟨[], [], c, rfl, rfl, by simp, by simp⟩
    · obtain ⟨l₁, l₂, m, hmax, hdec, h1, h2⟩ := ih hl'
      have hstep : maxByKeyLen (l' ++ [c]) =
          (if m.length ≤ c.length then some c else some m) := by
        unfold maxByKeyLen at hmax ⊢
        rw [List.foldl_append, hmax]
        rfl
      by_cases hlen : m.length ≤ c.length
      · refine ⟨l', [], c, by rw [hstep, if_pos hlen], by simp, ?_, by simp⟩
        intro x hx
        rw [hdec] at hx
        rcases List.mem_append.mp hx with hx1 | hx2
        · exact le_trans (h1 x hx1) hlen
        · rcases List.mem_cons.mp hx2 with rfl | hx3
          · exact hlen
          · exact le_trans (le_of_lt (h2 x hx3)) hlen
      · refine ⟨l₁, l₂ ++ [c], m, by rw [hstep, if_neg hlen], ?_, h1, ?_⟩
        · rw [hdec]
          simp
        · intro x hx
          rcases List.mem_append.mp hx with hx1 | hx2
          · exact h2 x hx1
          · rcases List.mem_singleton.mp hx2 with rfl
            omega

/-! ### BFS correctness -/

theorem mem_bfsPush (vis : List Node) (dd : Nat) (ns : List (Node × Weight))
    (x : Node) (d : Nat) :
    (x, d) ∈ bfsPush vis dd ns ↔ d = dd ∧ x ∉ vis ∧ ∃ w, (x, w) ∈ ns := by
  induction ns with
  | nil => simp [bfsPush]
  | cons hd tl ih =>
    obtain ⟨n, w'⟩ := hd
    by_cases hn : n ∈ vis
    · rw [bfsPush, if_pos hn, ih]
      constructor
      · rintro ⟨rfl, hx, w, hw⟩
        exact ⟨rfl, hx, w, List.mem_cons_of_mem _ hw⟩
      · rintro ⟨rfl, hx, w, hw⟩
        rcases List.mem_cons.mp hw with heq | hmem
        · injection heq with h1 h2
          subst h1
          exact absurd hn hx
        · exact ⟨rfl, hx, w, hmem⟩
    · rw [bfsPush, if_neg hn]
      constructor
      · intro hmem
        rcases List.mem_cons.mp hmem with heq | hmem2
        · injection heq with h1 h2
          subst h1
          subst h2
          exact ⟨rfl, hn, w', List.mem_cons_self _ _⟩
        · obtain ⟨rfl, hx, w, hw⟩ := ih.mp hmem2
          exact ⟨rfl, hx, w, List.mem_cons_of_mem _ hw⟩
      · rintro ⟨rfl, hx, w, hw⟩
        rcases List.mem_cons.mp hw with heq | hmem2
        · injection heq with h1 h2
          subst h1
          exact List.mem_cons_self _ _
        · exact List.mem_cons_of_mem _ (ih.mpr ⟨rfl, hx, w, hmem2⟩)

theorem mem_map_fst {α : Type} (l : List (Node × α)) (x : Node) :
    x ∈ l.map Prod.fst ↔ ∃ d, (x, d) ∈ l := by
  rw [List.mem_map]
  constructor
  · rintro ⟨⟨a, b⟩, hmem, rfl⟩
    exact ⟨b, hmem⟩
  · rintro ⟨d, hd⟩
    exact ⟨(x, d), hd, rfl⟩

theorem val_unique_of_nodup {α : Type} (l : List (Node × α))
    (h : (l.map Prod.fst).Nodup) (x : Node) (d1 d2 : α)
    (h1 : (x, d1) ∈ l) (h2 : (x, d2) ∈ l) : d1 = d2 :=
  Option.some.inj ((mem_alookup l x d1 h h1).symm.trans (mem_alookup l x d2 h h2))

theorem bfsLoop_spec (g : Graph) (s : Node) :
    ∀ (q : List (Node × Nat)) (v : List Node) (ds : List (Node × Nat)),
      BfsInv g s q v ds → BfsOut g s q ds (bfsLoop g q v ds) := by
  intro q v ds
  induction q, v, ds using bfsLoop.induct g with
  | case1 v ds =>
    intro hinv
    simp only [bfsLoop]
    refine ⟨⟨[], by simp⟩, hinv.sound_ds, hinv.nodupKeys, ?_, ?_⟩
    · intro p hp
      simp at hp
    · intro p hp nb hnb
      rcases hinv.closure p hp nb hnb with ⟨dd, hdd, hle⟩ | ⟨dd, hdd, _⟩
      · exact ⟨dd, hdd, hle⟩
      · simp at hdd
  | case2 current d rest visited dists hv ih =>
    intro hinv
    have hq : bfsLoop g ((current, d) :: rest) visited dists =
        bfsLoop g rest visited dists := by
      simp only [bfsLoop, if_pos hv]
    rw [hq]
    have hcd : ∃ dc', (current, dc') ∈ dists ∧ dc' ≤ d := by
      obtain ⟨dc', hdc'⟩ := (mem_map_fst _ _).mp ((hinv.visited_iff current).mp hv)
      exact ⟨dc', hdc', hinv.ds_le_q _ hdc' (current, d) (List.mem_cons_self _ _)⟩
    have hinv' : BfsInv g s rest visited dists :=
      { visited_iff := hinv.visited_iff
        nodupKeys := hinv.nodupKeys
        sound_ds := hinv.sound_ds
        sound_q := fun p hp => hinv.sound_q p (List.mem_cons_of_mem _ hp)
        sorted_q := (List.pairwise_cons.mp hinv.sorted_q).2
        bound_q := fun p hp p' hp' =>
          hinv.bound_q p (List.mem_cons_of_mem _ hp) p' (List.mem_cons_of_mem _ hp')
        ds_le_q := fun p hp p' hp' => hinv.ds_le_q p hp p' (List.mem_cons_of_mem _ hp')
        closure := by
          intro p hp nb hnb
          rcases hinv.closure p hp nb hnb with h | ⟨dq, hdq, hle⟩
          · exact Or.inl h
          · rcases List.mem_cons.mp hdq with heq | hmem
            · obtain ⟨dc', hdc', hdcle⟩ := hcd
              injection heq with h1 h2
              refine Or.inl ⟨dc', by rw [h1]; exact hdc', by omega⟩
            · exact Or.inr ⟨dq, hmem, hle⟩ }
    have hout := ih hinv'
    obtain ⟨t, ht⟩ := hout.ext
    refine ⟨hout.ext, hout.sound, hout.nodupKeys, ?_, hout.closure⟩
    intro p hp
    rcases List.mem_cons.mp hp with heq | hmem
    · subst heq
      obtain ⟨dc', hdc', hdcle⟩ := hcd
      exact ⟨dc', by rw [ht]; exact List.mem_append_left _ hdc', hdcle⟩
    · exact hout.covers_q p hmem
  | case3 current d rest visited dists hnv ih =>
    intro hinv
    have hq : bfsLoop g ((current, d) :: rest) visited dists =
        bfsLoop g (rest ++ bfsPush (current :: visited) (d + 1) (g.adjOf current))
          (current :: visited) (dists ++ [(current, d)]) := by
      simp only [bfsLoop, if_neg hnv]
    rw [hq]
    have hpc : hasPathLen g s current d := hinv.sound_q _ (List.mem_cons_self _ _)
    have hcknot : current ∉ dists.map Prod.fst :=
      fun h => hnv ((hinv.visited_iff current).mpr h)
    have hrest_le : ∀ p ∈ rest, d ≤ p.2 :=
      fun p hp => (List.pairwise_cons.mp hinv.sorted_q).1 p hp
    have hrest_bound : ∀ p ∈ rest, p.2 ≤ d + 1 :=
      fun p hp =>
        hinv.bound_q p (List.mem_cons_of_mem _ hp) (current, d) (List.mem_cons_self _ _)
    have hds_le_d : ∀ p ∈ dists, p.2 ≤ d :=
      fun p hp => hinv.ds_le_q p hp (current, d) (List.mem_cons_self _ _)
    have hpush_mem : ∀ p ∈ bfsPush (current :: visited) (d + 1) (g.adjOf current),
        p.2 = d + 1 ∧ p.1 ∉ current :: visited ∧ ∃ w, (p.1, w) ∈ g.adjOf current := by
      intro p hp
      obtain ⟨x, dd⟩ := p
      exact (mem_bfsPush _ _ _ _ _).mp hp
    have hinv' : BfsInv g s
        (rest ++ bfsPush (current :: visited) (d + 1) (g.adjOf current))
        (current :: visited) (dists ++ [(current, d)]) :=
      { visited_iff := by
          intro x
          rw [List.mem_cons, List.map_append, List.mem_append]
          simp only [List.map_cons, List.map_nil, List.mem_singleton]
          rw [hinv.visited_iff x]
          tauto
        nodupKeys := by
          rw [List.map_append]
          simp only [List.map_cons, List.map_nil]
          rw [List.nodup_append]
          refine ⟨hinv.nodupKeys, List.nodup_singleton _, ?_⟩
          intro a ha hb
          rw [List.mem_singleton] at hb
          subst hb
          exact hcknot ha
        sound_ds := by
          intro p hp
          rcases List.mem_append.mp hp with h | h
          · exact hinv.sound_ds p h
          · rw [List.mem_singleton] at h
            subst h
            exact hpc
        sound_q := by
          intro p hp
          rcases List.mem_append.mp hp with h | h
          · exact hinv.sound_q p (List.mem_cons_of_mem _ h)
          · obtain ⟨h1, h2, w, hw⟩ := hpush_mem p h
            obtain ⟨x, dd⟩ := p
            simp only at h1 hw
            subst h1
            exact hasPathLen.step hpc ⟨w, hw⟩
        sorted_q := by
          rw [List.pairwise_append]
          refine ⟨(List.pairwise_cons.mp hinv.sorted_q).2, ?_, ?_⟩
          · apply List.pairwise_of_forall_mem_list
            intro a ha b hb
            rw [(hpush_mem a ha).1, (hpush_mem b hb).1]
          · intro a ha b hb
            rw [(hpush_mem b hb).1]
            exact hrest_bound a ha
        bound_q := by
          intro p hp p' hp'
          rcases List.mem_append.mp hp with h | h <;>
            rcases List.mem_append.mp hp' with h' | h'
          · exact hinv.bound_q p (List.mem_cons_of_mem _ h) p' (List.mem_cons_of_mem _ h')
          · rw [(hpush_mem p' h').1]
            have := hrest_bound p h
            omega
          · rw [(hpush_mem p h).1]
            have := hrest_le p' h'
            omega
          · rw [(hpush_mem p h).1, (hpush_mem p' h').1]
            omega
        ds_le_q := by
          intro p hp p' hp'
          rcases List.mem_append.mp hp with h | h <;>
            rcases List.mem_append.mp hp' with h' | h'
          · exact hinv.ds_le_q p h p' (List.mem_cons_of_mem _ h')
          · rw [(hpush_mem p' h').1]
            have := hds_le_d p h
            omega
          · rw [List.mem_singleton] at h
            subst h
            exact hrest_le p' h'
          · rw [List.mem_singleton] at h
            subst h
            rw [(hpush_mem p' h').1]
            omega
        closure := by
          intro p hp nb hnb
          rcases List.mem_append.mp hp with h | h
          · rcases hinv.closure p h nb hnb with ⟨dd, hdd, hle⟩ | ⟨dd, hdd, hle⟩
            · exact Or.inl ⟨dd, List.mem_append_left _ hdd, hle⟩
            · rcases List.mem_cons.mp hdd with heq | hmem
              · injection heq with h1 h2
                refine Or.inl ⟨d, List.mem_append_right _ ?_, by omega⟩
                rw [h1]
                exact List.mem_singleton_self _
              · exact Or.inr ⟨dd, List.mem_append_left _ hmem, hle⟩
          · rw [List.mem_singleton] at h
            subst h
            by_cases hnb1 : nb.1 ∈ current :: visited
            · rcases List.mem_cons.mp hnb1 with heq | hv
              · refine Or.inl ⟨d, List.mem_append_right _ ?_, by omega⟩
                rw [heq]
                exact List.mem_singleton_self _
              · obtain ⟨dd, hdd⟩ := (mem_map_fst _ _).mp ((hinv.visited_iff nb.1).mp hv)
                have hddle : dd ≤ d :=
                  hinv.ds_le_q _ hdd (current, d) (List.mem_cons_self _ _)
                exact Or.inl ⟨dd, List.mem_append_left _ hdd, by omega⟩
            · refine Or.inr ⟨d + 1, List.mem_append_right _ ?_, by omega⟩
              rw [mem_bfsPush]
              refine ⟨rfl, hnb1, nb.2, ?_⟩
              simpa using hnb }
    have hout := ih hinv'
    obtain ⟨t, ht⟩ := hout.ext
    refine ⟨⟨(current, d) :: t, by rw [ht, List.append_assoc]; rfl⟩,
      hout.sound, hout.nodupKeys, ?_, hout.closure⟩
    intro p hp
    rcases List.mem_cons.mp hp with heq | hmem
    · subst heq
      refine ⟨d, ?_, le_refl _⟩
      rw [ht]
      exact List.mem_append_left _ (List.mem_append_right _ (List.mem_singleton_self _))
    · exact hout.covers_q p (List.mem_append_left _ hmem)

theorem bfs_out (g : Graph) (s : Node) :
    BfsOut g s [(s, 0)] [] (g.bfs_shortest_paths s) := by
  apply bfsLoop_spec
  refine
    { visited_iff := by simp
      nodupKeys := by simp
      sound_ds := by intro p hp; simp at hp
      sound_q := ?_
      sorted_q := by simp
      bound_q := ?_
      ds_le_q := by intro p hp; simp at hp
      closure := by intro p hp; simp at hp }
  · intro p hp
    rw [List.mem_singleton] at hp
    subst hp
    exact hasPathLen.refl
  · intro p hp p' hp'
    rw [List.mem_singleton] at hp hp'
    subst hp
    subst hp'
    omega

theorem bfs_sound (g : Graph) (s : Node) :
    ∀ p ∈ g.bfs_shortest_paths s, hasPathLen g s p.1 p.2 :=
  (bfs_out g s).sound

theorem bfs_nodupKeys (g : Graph) (s : Node) :
    ((g.bfs_shortest_paths s).map Prod.fst).Nodup :=
  (bfs_out g s).nodupKeys

theorem bfs_start_mem (g : Graph) (s : Node) : (s, 0) ∈ g.bfs_shortest_paths s := by
  obtain ⟨dd, hdd, hle⟩ := (bfs_out g s).covers_q (s, 0) (List.mem_singleton_self _)
  have : dd = 0 := Nat.le_zero.mp hle
  subst this
  exact hdd

theorem bfs_complete (g : Graph) (s : Node) (x : Node) (m : Nat)
    (h : hasPathLen g s x m) :
    ∃ d, (x, d) ∈ g.bfs_shortest_paths s ∧ d ≤ m := by
  induction h with
  | refl => exact ⟨0, bfs_start_mem g s, le_refl 0⟩
  | step hpath hadj ih =>
    obtain ⟨dy, hdy, hdyle⟩ := ih
    obtain ⟨w, hw⟩ := hadj
    obtain ⟨dz, hdz, hdzle⟩ := (bfs_out g s).closure _ hdy (_, w) hw
    exact ⟨dz, hdz, by omega⟩

theorem bfs_minimal (g : Graph) (s : Node) (x : Node) (dx m : Nat)
    (hmem : (x, dx) ∈ g.bfs_shortest_paths s) (h : hasPathLen g s x m) : dx ≤ m := by
  obtain ⟨d, hd, hdle⟩ := bfs_complete g s x m h
  have := val_unique_of_nodup _ (bfs_nodupKeys g s) x d dx hd hmem
  omega

/-! ### Claim C4: BFS computes exact minimum hop counts -/

/-- C4: `bfs_shortest_paths` assigns the start distance 0; each node is
recorded at most once (fixed at first discovery); every recorded distance
is realised by a walk whose every edge counts exactly 1 regardless of
weight and is minimal among all such walks; and every reachable node is
recorded with its minimal hop count. -/
theorem bfs_shortest_paths_correct (g : Graph) (s : Node) :
    alookup (g.bfs_shortest_paths s) s = some 0 ∧
    ((g.bfs_shortest_paths s).map Prod.fst).Nodup ∧
    (∀ x d, alookup (g.bfs_shortest_paths s) x = some d →
      hasPathLen g s x d ∧ ∀ m, hasPathLen g s x m → d ≤ m) ∧
    (∀ x m, hasPathLen g s x m →
      ∃ d, alookup (g.bfs_shortest_paths s) x = some d ∧ d ≤ m) := by
  refine ⟨?_, bfs_nodupKeys g s, ?_, ?_⟩
  · exact mem_alookup _ _ _ (bfs_nodupKeys g s) (bfs_start_mem g s)
  · intro x d hx
    have hmem := alookup_mem _ _ _ hx
    exact ⟨bfs_sound g s _ hmem, fun m hm => bfs_minimal g s x d m hmem hm⟩
  · intro x m hm
    obtain ⟨d, hd, hdle⟩ := bfs_complete g s x m hm
    exact ⟨d, mem_alookup _ _ _ (bfs_nodupKeys g s) hd, hdle⟩

theorem mem_bfs_keys_iff_reaches (g : Graph) (s : Node) (x : Node) :
    x ∈ (g.bfs_shortest_paths s).map Prod.fst ↔ Reaches g s x := by
  constructor
  · intro h
    obtain ⟨d, hd⟩ := (mem_map_fst _ _).mp h
    exact ⟨d, bfs_sound g s _ hd⟩
  · rintro ⟨m, hm⟩
    obtain ⟨d, hd, _⟩ := bfs_complete g s x m hm
    exact (mem_map_fst _ _).mpr ⟨d, hd⟩

/-! ### Claim C1 (amended): BFS keys are exactly the reachable nodes -/

/-- C1 (amended): the map returned by `bfs_shortest_paths start` has an
entry exactly for every node reachable from `start` (including `start`);
unreachable nodes are absent from the map — there is no `UNREACHABLE`
sentinel value, and absent nodes never participate in any arithmetic. -/
theorem bfs_keys_exactly_reachable (g : Graph) (s : Node) (x : Node) :
    x ∈ (g.bfs_shortest_paths s).map Prod.fst ↔ Reaches g s x :=
  mem_bfs_keys_iff_reaches g s x

/-! ### Claim C6: the harmonic score is the filtered reciprocal sum -/

theorem harmonicSum_eq_filter (l : List (Node × Nat)) :
    harmonicSum l =
      ((l.filter (fun p => decide (0 < p.2))).map (fun p => (1 : ℚ) / (p.2 : ℚ))).sum := by
  induction l with
  | nil => rfl
  | cons hd tl ih =>
    unfold harmonicSum at ih ⊢
    rw [List.map_cons, List.sum_cons, List.filter_cons]
    by_cases h : 0 < hd.2
    · rw [if_pos h, if_pos (decide_eq_true h), List.map_cons, List.sum_cons, ih]
    · rw [if_neg h, if_neg (fun hc => h (of_decide_eq_true hc)), ih, zero_add]

/-- C6: the score `harmonic_centrality` computes for a node `n` equals the
sum of `1/d` over exactly the entries of `bfs_shortest_paths n` with
`d > 0` (the self-distance 0 is excluded); every summed entry is a genuine
finite hop distance, so unreachable nodes — absent from the distance map —
never enter the summation; and every entry of the returned centrality map
carries exactly this score. -/
theorem harmonic_score_eq_filtered_sum (g : Graph) (n : Node) :
    harmonicScore g n =
      (((g.bfs_shortest_paths n).filter (fun p => decide (0 < p.2))).map
        (fun p => (1 : ℚ) / (p.2 : ℚ))).sum ∧
    (∀ p ∈ g.bfs_shortest_paths n, hasPathLen g n p.1 p.2) ∧
    (∀ p ∈ g.harmonic_centrality, p.2 = harmonicScore g p.1) := by
  refine ⟨harmonicSum_eq_filter _, bfs_sound g n, ?_⟩
  intro p hp
  unfold Graph.harmonic_centrality at hp
  have h1 : p ∈ List.insertionSort scoreGE
      (g.keysList.map (fun node => (node, harmonicScore g node))) :=
    List.take_subset _ _ hp
  obtain ⟨x, _, hxp⟩ := List.mem_map.mp ((List.mem_insertionSort scoreGE).mp h1)
  subst hxp
  rfl

/-! ### Reachability toolbox -/

theorem reaches_refl (g : Graph) (x : Node) : Reaches g x x := ⟨0, hasPathLen.refl⟩

theorem hasPathLen_trans (g : Graph) (a b c : Node) (n m : Nat)
    (h1 : hasPathLen g a b n) (h2 : hasPathLen g b c m) : hasPathLen g a c (n + m) := by
  induction h2 with
  | refl => exact h1
  | step hp hadj ih => exact hasPathLen.step ih hadj

theorem reaches_trans (g : Graph) (a b c : Node) (h1 : Reaches g a b)
    (h2 : Reaches g b c) : Reaches g a c := by
  obtain ⟨n, hn⟩ := h1
  obtain ⟨m, hm⟩ := h2
  exact ⟨n + m, hasPathLen_trans g a b c n m hn hm⟩

theorem adjStep_reaches (g : Graph) (x y : Node) (h : adjStep g x y) : Reaches g x y :=
  ⟨1, hasPathLen.step hasPathLen.refl h⟩

theorem reaches_symm (g : Graph) (hsym : SymmAdj g) (a b : Node) (h : Reaches g a b) :
    Reaches g b a := by
  obtain ⟨n, h⟩ := h
  induction h with
  | refl => exact reaches_refl g a
  | step hp hadj ih =>
    obtain ⟨w, hw⟩ := hadj
    exact reaches_trans g _ _ _ (adjStep_reaches g _ _ ⟨w, hsym _ _ _ hw⟩) ih

theorem closed_reaches (g : Graph) (v : List Node)
    (hcl : ∀ x ∈ v, ∀ nb ∈ g.adjOf x, nb.1 ∈ v) (a b : Node) (ha : a ∈ v)
    (h : Reaches g a b) : b ∈ v := by
  obtain ⟨n, h⟩ := h
  induction h with
  | refl => exact ha
  | step hp hadj ih =>
    obtain ⟨w, hw⟩ := hadj
    exact hcl _ ih _ hw

theorem reaches_mem_keys (g : Graph) (hcl : ClosedKeys g) (a b : Node)
    (ha : a ∈ g.keysList) (h : Reaches g a b) : b ∈ g.keysList := by
  obtain ⟨n, h⟩ := h
  induction h with
  | refl => exact ha
  | step hp hadj ih =>
    obtain ⟨w, hw⟩ := hadj
    exact (hcl _ _ _ hw).2

/-! ### DFS and connected components -/

theorem mem_dfsPush (vis : List Node) (ns : List (Node × Weight)) (x : Node) :
    x ∈ dfsPush vis ns ↔ x ∉ vis ∧ ∃ w, (x, w) ∈ ns := by
  induction ns with
  | nil => simp [dfsPush]
  | cons hd tl ih =>
    obtain ⟨n, w'⟩ := hd
    by_cases hn : n ∈ vis
    · rw [dfsPush, if_pos hn, ih]
      constructor
      · rintro ⟨hx, w, hw⟩
        exact ⟨hx, w, List.mem_cons_of_mem _ hw⟩
      · rintro ⟨hx, w, hw⟩
        rcases List.mem_cons.mp hw with heq | hmem
        · injection heq with h1 h2
          subst h1
          exact absurd hn hx
        · exact ⟨hx, w, hmem⟩
    · rw [dfsPush, if_neg hn]
      constructor
      · intro hmem
        rcases List.mem_cons.mp hmem with heq | hmem2
        · subst heq
          exact ⟨hn, w', List.mem_cons_self _ _⟩
        · obtain ⟨hx, w, hw⟩ := ih.mp hmem2
          exact ⟨hx, w, List.mem_cons_of_mem _ hw⟩
      · rintro ⟨hx, w, hw⟩
        rcases List.mem_cons.mp hw with heq | hmem2
        · injection heq with h1 h2
          subst h1
          exact List.mem_cons_self _ _
        · exact List.mem_cons_of_mem _ (ih.mpr ⟨hx, w, hmem2⟩)

theorem dfsLoop_spec (g : Graph) :
    ∀ (stack visited component : List Node),
      ∃ fresh : List Node,
        (dfsLoop g stack visited component).2 = component ++ fresh ∧
        (∀ x, x ∈ (dfsLoop g stack visited component).1 ↔ x ∈ visited ∨ x ∈ fresh) ∧
        (∀ x ∈ fresh, x ∉ visited) ∧
        fresh.Nodup ∧
        (∀ x ∈ fresh, ∃ y ∈ stack, Reaches g y x) ∧
        (∀ x ∈ stack, x ∈ (dfsLoop g stack visited component).1) ∧
        (∀ x ∈ fresh, ∀ nb ∈ g.adjOf x, nb.1 ∈ (dfsLoop g stack visited component).1) := by
  intro stack visited component
  induction stack, visited, component using dfsLoop.induct g with
  | case1 visited component =>
    refine ⟨[], by simp [dfsLoop], ?_, by simp, List.nodup_nil, by simp, by simp, by simp⟩
    intro x
    simp [dfsLoop]
  | case2 current stack visited component hv ih =>
    have heq : dfsLoop g (current :: stack) visited component =
        dfsLoop g stack visited component := by
      simp only [dfsLoop, if_pos hv]
    rw [heq]
    obtain ⟨fresh, h1, h2, h3, h4, h5, h6, h7⟩ := ih
    refine ⟨fresh, h1, h2, h3, h4, ?_, ?_, h7⟩
    · intro x hx
      obtain ⟨y, hy, hr⟩ := h5 x hx
      exact ⟨y, List.mem_cons_of_mem _ hy, hr⟩
    · intro x hx
      rcases List.mem_cons.mp hx with rfl | hmem
      · exact (h2 x).mpr (Or.inl hv)
      · exact h6 x hmem
  | case3 current stack visited component hnv ih =>
    have heq : dfsLoop g (current :: stack) visited component =
        dfsLoop g ((dfsPush (current :: visited) (g.adjOf current)).reverse ++ stack)
          (current :: visited) (component ++ [current]) := by
      simp only [dfsLoop, if_neg hnv]
    rw [heq]
    obtain ⟨fresh', h1, h2, h3, h4, h5, h6, h7⟩ := ih
    have hcur_fresh : current ∉ fresh' := by
      intro hc
      exact h3 current hc (List.mem_cons_self _ _)
    refine ⟨current :: fresh', ?_, ?_, ?_, ?_, ?_, ?_, ?_⟩
    · rw [h1, List.append_assoc]
      rfl
    · intro x
      rw [h2 x, List.mem_cons, List.mem_cons]
      tauto
    · intro x hx
      rcases List.mem_cons.mp hx with rfl | hmem
      · exact hnv
      · exact fun hxv => h3 x hmem (List.mem_cons_of_mem _ hxv)
    · exact List.nodup_cons.mpr ⟨hcur_fresh, h4⟩
    · intro x hx
      rcases List.mem_cons.mp hx with rfl | hmem
      · exact ⟨x, List.mem_cons_self _ _, reaches_refl g x⟩
      · obtain ⟨y, hy, hr⟩ := h5 x hmem
        rcases List.mem_append.mp hy with hyp | hys
        · have hyd := List.mem_reverse.mp hyp
          obtain ⟨hynv, w, hw⟩ := (mem_dfsPush _ _ _).mp hyd
          exact ⟨current, List.mem_cons_self _ _,
            reaches_trans g _ _ _ (adjStep_reaches g _ _ ⟨w, hw⟩) hr⟩
        · exact ⟨y, List.mem_cons_of_mem _ hys, hr⟩
    · intro x hx
      rcases List.mem_cons.mp hx with rfl | hmem
      · exact (h2 x).mpr (Or.inl (List.mem_cons_self _ _))
      · exact h6 x (List.mem_append_right _ hmem)
    · intro x hx nb hnb
      rcases List.mem_cons.mp hx with rfl | hmem
      · by_cases hnbv : nb.1 ∈ x :: visited
        · exact (h2 nb.1).mpr (Or.inl hnbv)
        · apply h6 nb.1
          apply List.mem_append_left
          apply List.mem_reverse.mpr
          rw [mem_dfsPush]
          exact ⟨hnbv, nb.2, by simpa using hnb⟩
      · exact h7 x hmem nb hnb

theorem componentsLoop_spec (g : Graph) (hsym : SymmAdj g) :
    ∀ (keys visited : List Node) (comps : List (List Node)),
      (∀ x ∈ visited, ∀ nb ∈ g.adjOf x, nb.1 ∈ visited) →
      ∃ t, componentsLoop g keys visited comps = comps ++ t ∧
        List.Pairwise (fun c d => ∀ x, x ∈ c → x ∉ d) t ∧
        (∀ c ∈ t, ∀ x ∈ c, x ∉ visited) ∧
        (∀ c ∈ t, c.Nodup) ∧
        (∀ k ∈ keys, k ∈ visited ∨ ∃ c ∈ t, k ∈ c) ∧
        (∀ c ∈ t, ∃ seed, seed ∈ keys ∧ ∀ x, x ∈ c ↔ Reaches g seed x) := by
  intro keys
  induction keys with
  | nil =>
    intro visited comps hcl
    exact ⟨[], by simp [componentsLoop], by simp, by simp, by simp, by simp, by simp⟩
  | cons node restKeys ih =>
    intro visited comps hcl
    by_cases hv : node ∈ visited
    · have heq : componentsLoop g (node :: restKeys) visited comps =
          componentsLoop g restKeys visited comps := by
        simp only [componentsLoop, if_pos hv]
      rw [heq]
      obtain ⟨t, h1, h2, h3, h4, h5, h6⟩ := ih visited comps hcl
      refine ⟨t, h1, h2, h3, h4, ?_, ?_⟩
      · intro k hk
        rcases List.mem_cons.mp hk with rfl | hmem
        · exact Or.inl hv
        · exact h5 k hmem
      · intro c hc
        obtain ⟨seed, hseed, hchar⟩ := h6 c hc
        exact ⟨seed, List.mem_cons_of_mem _ hseed, hchar⟩
    · have heq : componentsLoop g (node :: restKeys) visited comps =
          componentsLoop g restKeys (dfsLoop g [node] visited []).1
            (comps ++ [(dfsLoop g [node] visited []).2]) := by
        simp only [componentsLoop, if_neg hv]
      rw [heq]
      obtain ⟨fresh, hd1, hd2, hd3, hd4, hd5, hd6, hd7⟩ := dfsLoop_spec g [node] visited []
      rw [List.nil_append] at hd1
      have hnode_fresh : node ∈ fresh := by
        have hmem := hd6 node (List.mem_cons_self _ _)
        rcases (hd2 node).mp hmem with h | h
        · exact absurd h hv
        · exact h
      have hfresh_iff : ∀ x, x ∈ fresh ↔ Reaches g node x := by
        intro x
        constructor
        · intro hx
          obtain ⟨y, hy, hr⟩ := hd5 x hx
          rw [List.mem_singleton] at hy
          subst hy
          exact hr
        · rintro ⟨n, hp⟩
          induction hp with
          | refl => exact hnode_fresh
          | @step a b k hp hadj ih2 =>
            obtain ⟨w, hw⟩ := hadj
            have hyv := hd7 _ ih2 _ hw
            rcases (hd2 _).mp hyv with hvis | hfr
            · exfalso
              have hr : Reaches g node b := ⟨k + 1, hasPathLen.step hp ⟨w, hw⟩⟩
              have hrs := reaches_symm g hsym _ _ hr
              exact hv (closed_reaches g visited hcl _ _ hvis hrs)
            · exact hfr
      have hclV : ∀ x ∈ (dfsLoop g [node] visited []).1, ∀ nb ∈ g.adjOf x,
          nb.1 ∈ (dfsLoop g [node] visited []).1 := by
        intro x hx nb hnb
        rcases (hd2 x).mp hx with hvis | hfr
        · exact (hd2 nb.1).mpr (Or.inl (hcl x hvis nb hnb))
        · exact hd7 x hfr nb hnb
      obtain ⟨t', hi1, hi2, hi3, hi4, hi5, hi6⟩ :=
        ih (dfsLoop g [node] visited []).1 (comps ++ [(dfsLoop g [node] visited []).2]) hclV
      refine ⟨fresh :: t', ?_, ?_, ?_, ?_, ?_, ?_⟩
      · rw [hi1, hd1, List.append_assoc]
        rfl
      · rw [List.pairwise_cons]
        refine ⟨?_, hi2⟩
        intro d hd x hxf
        intro hxd
        have hxV : x ∈ (dfsLoop g [node] visited []).1 := (hd2 x).mpr (Or.inr hxf)
        exact hi3 d hd x hxd hxV
      · intro c hc
        rcases List.mem_cons.mp hc with rfl | hmem
        · exact hd3
        · intro x hx hxv
          exact hi3 c hmem x hx ((hd2 x).mpr (Or.inl hxv))
      · intro c hc
        rcases List.mem_cons.mp hc with rfl | hmem
        · exact hd4
        · exact hi4 c hmem
      · intro k hk
        rcases List.mem_cons.mp hk with rfl | hmem
        · exact Or.inr ⟨fresh, List.mem_cons_self _ _, hnode_fresh⟩
        · rcases hi5 k hmem with hV | ⟨c, hc, hkc⟩
          · rcases (hd2 k).mp hV with hvis | hfr
            · exact Or.inl hvis
            · exact Or.inr ⟨fresh, List.mem_cons_self _ _, hfr⟩
          · exact Or.inr ⟨c, List.mem_cons_of_mem _ hc, hkc⟩
      · intro c hc
        rcases List.mem_cons.mp hc with rfl | hmem
        · exact ⟨node, List.mem_cons_self _ _, hfresh_iff⟩
        · obtain ⟨seed, hseed, hchar⟩ := hi6 c hmem
          exact ⟨seed, List.mem_cons_of_mem _ hseed, hchar⟩

theorem connected_components_spec (g : Graph) (hsym : SymmAdj g) :
    List.Pairwise (fun c d => ∀ x, x ∈ c → x ∉ d) g.connected_components ∧
    (∀ c ∈ g.connected_components, c.Nodup) ∧
    (∀ k ∈ g.keysList, ∃ c ∈ g.connected_components, k ∈ c) ∧
    (∀ c ∈ g.connected_components,
      ∃ seed, seed ∈ g.keysList ∧ ∀ x, x ∈ c ↔ Reaches g seed x) := by
  obtain ⟨t, h1, h2, h3, h4, h5, h6⟩ :=
    componentsLoop_spec g hsym g.keysList [] [] (by intro x hx; simp at hx)
  have hcc : g.connected_components = t := by
    unfold Graph.connected_components
    rw [h1, List.nil_append]
  rw [hcc]
  refine ⟨h2, h4, ?_, h6⟩
  intro k hk
  rcases h5 k hk with habs | h
  · simp at habs
  · exact h

/-! ### Claim C5: connected components partition the node set -/

/-- C5: for every built (hence undirected) store, the components returned
by `connected_components` are pairwise disjoint and their union is exactly
the set of all nodes known to the store, so each node lies in exactly one
component. -/
theorem connected_components_partition (edges : List (Node × Node × Weight)) :
    List.Pairwise (fun c d => ∀ x, x ∈ c → x ∉ d)
      (build_graph edges).connected_components ∧
    (∀ x, x ∈ (build_graph edges).keysList ↔
      ∃ c ∈ (build_graph edges).connected_components, x ∈ c) := by
  obtain ⟨hsym, hclosed, hnd⟩ := build_graph_invariants edges
  obtain ⟨hpw, hndc, hcov, hseeds⟩ := connected_components_spec _ hsym
  refine ⟨hpw, ?_⟩
  intro x
  constructor
  · exact hcov x
  · rintro ⟨c, hc, hxc⟩
    obtain ⟨seed, hseedk, hchar⟩ := hseeds c hc
    exact reaches_mem_keys _ hclosed seed x hseedk ((hchar x).mp hxc)

/-! ### Claim C10: BFS key set equals the component of the start -/

/-- C10: for every built store and every known start node, the key set of
the map returned by `bfs_shortest_paths start` coincides with the
connected component containing `start` in `connected_components`. -/
theorem bfs_keys_eq_component_of_start (edges : List (Node × Node × Weight)) (s : Node)
    (_hs : s ∈ (build_graph edges).keysList) :
    ∀ c ∈ (build_graph edges).connected_components, s ∈ c →
      ∀ x, x ∈ c ↔ x ∈ ((build_graph edges).bfs_shortest_paths s).map Prod.fst := by
  obtain ⟨hsym, hclosed, hnd⟩ := build_graph_invariants edges
  obtain ⟨hpw, hndc, hcov, hseeds⟩ := connected_components_spec _ hsym
  intro c hc hsc x
  obtain ⟨seed, hseedk, hchar⟩ := hseeds c hc
  have hss : Reaches (build_graph edges) seed s := (hchar s).mp hsc
  rw [hchar x, mem_bfs_keys_iff_reaches]
  constructor
  · intro h
    exact reaches_trans _ _ _ _ (reaches_symm _ hsym _ _ hss) h
  · intro h
    exact reaches_trans _ _ _ _ hss h

/-- Witness for C10 at a concrete store, start, component and node. -/
theorem bfs_keys_eq_component_of_start_witness :
    "A" ∈ (build_graph [("A", "B", 1)]).keysList ∧
    ["A", "B"] ∈ (build_graph [("A", "B", 1)]).connected_components ∧
    "A" ∈ (["A", "B"] : List Node) ∧
    ("B" ∈ (["A", "B"] : List Node) ↔
      "B" ∈ ((build_graph [("A", "B", 1)]).bfs_shortest_paths "A").map Prod.fst) := by
  have hcc : (build_graph [("A", "B", 1)]).connected_components = [["A", "B"]] := by
    simp [Graph.connected_components, componentsLoop, dfsLoop, dfsPush, build_graph,
      Graph.add_edge, Graph.new, pushEntry, Graph.adjOf, alookup, Graph.keysList]
  refine ⟨by decide, by rw [hcc]; exact List.mem_singleton_self _, by decide, ?_⟩
  exact bfs_keys_eq_component_of_start [("A", "B", 1)] "A" (by decide) ["A", "B"]
    (by rw [hcc]; exact List.mem_singleton_self _) (by decide) "B"

/-- C3 (amended): `largest_component` always returns a component of
maximal cardinality; among equal-size maximal components the *last*
encountered in the `connected_components` sequence is returned (for a
store with no components it returns the empty set). -/
theorem largest_component_is_last_max (g : Graph) :
    (g.connected_components = [] → g.largest_component = []) ∧
    (g.connected_components ≠ [] →
      ∃ l₁ l₂, g.connected_components = l₁ ++ g.largest_component :: l₂ ∧
        (∀ c ∈ l₁, c.length ≤ g.largest_component.length) ∧
        (∀ c ∈ l₂, c.length < g.largest_component.length)) := by
  constructor
  · intro h
    unfold Graph.largest_component
    rw [h]
    rfl
  · intro h
    obtain ⟨l₁, l₂, m, hmax, hdec, h1, h2⟩ := maxByKeyLen_spec _ h
    unfold Graph.largest_component
    rw [hmax]
    exact ⟨l₁, l₂, hdec, h1, h2⟩

end FlightGraph
